import Mathlib

set_option maxRecDepth 10000

/-!
Shallow embedding of the GitHub newsletter generator's agent core
(`OpenAIAgent` in `src/openai-agent.ts`, bundled into `src/config.ts`) and of
the MCP tool-host adapter (`GitHubMCPClient` in `src/mcp-client.ts`):

* token estimation (`estimateTokens`) and truncation (`truncateContent`),
* conversation history pruning (the budgeting step of `summarizeRepo`),
* the tool-calling loop of `OpenAIAgent.summarizeRepo`,
* structured-result extraction (`parseSummaryFromMessage`),
* `GitHubMCPClient.callTool` and its tool-name mapping.

Modelling conventions: JavaScript strings are Lean `String`s (sequences of
characters; `s.substring(0, n)` is taking the first `n` characters);
JavaScript exceptions are `Except`/`Option`; the remote reasoning service
(OpenAI chat completion) and the capability host (MCP server) are
parameters of the loop, so theorems quantify over their behaviour.
-/

namespace Newsletter

/-- JSON values: the model of the JavaScript values produced by the host
primitive `JSON.parse` (`Modelled from the spec:` the host JSON semantics is
not part of the repository; numbers are restricted to integers, and objects
keep their fields in insertion order, later duplicates winning on access). -/
inductive Json where
  | null : Json
  | bool : Bool → Json
  | num : Int → Json
  | str : String → Json
  | arr : List Json → Json
  | obj : List (String × Json) → Json

/-- `OpenAIAgent.estimateTokens`: rough token estimation,
`Math.ceil(text.length / 4)` — about four characters per token. -/
def estimateTokens (text : String) : Nat :=
  (text.length + 3) / 4

/-- The fixed marker `"\n\n[Content truncated due to size limits...]"`
appended by `OpenAIAgent.truncateContent` (43 characters). -/
def truncMarker : String := "\n\n[Content truncated due to size limits...]"

/-- `OpenAIAgent.truncateContent`: return `content` unchanged when its
estimate fits within `maxTokens`; otherwise cut to `maxTokens * 4`
characters (`content.substring(0, maxChars)`) and append the marker. -/
def truncateContent (content : String) (maxTokens : Nat) : String :=
  if estimateTokens content ≤ maxTokens then content
  else String.mk (content.data.take (maxTokens * 4)) ++ truncMarker

/-- `OpenAIAgent.MAX_TOOL_RESULT_TOKENS`. -/
def MAX_TOOL_RESULT_TOKENS : Nat := 5000

/-- `OpenAIAgent.MAX_TOTAL_MESSAGE_TOKENS`. -/
def MAX_TOTAL_MESSAGE_TOKENS : Nat := 20000

/-- One tool call requested by the reasoning service
(`toolCall.id`, `toolCall.function.name`, `toolCall.function.arguments`). -/
structure ToolCall where
  id : String
  name : String
  arguments : String
  deriving DecidableEq, Repr

/-- A conversation message (`ChatCompletionMessageParam`): system, user,
assistant (optional text content plus tool calls; an absent `tool_calls`
field is the empty list) or tool result (`tool_call_id`, content). -/
inductive Msg where
  | system : String → Msg
  | user : String → Msg
  | assistant : Option String → List ToolCall → Msg
  | tool : String → String → Msg
  deriving DecidableEq, Repr

/-- The text whose token estimate a message contributes to the running
total: `typeof msg.content === "string" ? msg.content :
JSON.stringify(msg.content)`; an assistant message with `null` content
stringifies to the four-character string `"null"`. -/
def Msg.sizeText : Msg → String
  | .system c => c
  | .user c => c
  | .assistant (some c) _ => c
  | .assistant none _ => "null"
  | .tool _ c => c

/-- The summed token estimate of a message list
(`messages.reduce((sum, msg) => sum + estimateTokens(content), 0)`). -/
def totalMessageSize (messages : List Msg) : Nat :=
  messages.foldl (fun sum msg => sum + estimateTokens msg.sizeText) 0

/-- `messages.slice(-n)`: the `n` most recent messages. -/
def lastN (n : Nat) (l : List Msg) : List Msg := l.drop (l.length - n)

/-- The history-pruning step at the top of each loop round of
`summarizeRepo`: when the summed estimate exceeds
`MAX_TOTAL_MESSAGE_TOKENS`, keep the first message (`messages[0]`, the
system prompt) and the five most recent ones (`messages.slice(-5)`). -/
def budgetMessages (messages : List Msg) : List Msg :=
  if MAX_TOTAL_MESSAGE_TOKENS < totalMessageSize messages then
    messages.take 1 ++ lastN 5 messages
  else messages

/-- JavaScript truthiness of a JSON value (an absent field — `undefined` —
is handled by callers as `Option.none`): the falsy values are `null`,
`false`, `0` and the empty string. -/
def jsonTruthy : Json → Bool
  | .null => false
  | .bool b => b
  | .num n => n != 0
  | .str s => !s.isEmpty
  | .arr _ => true
  | .obj _ => true

/-- `v || d` on an optional JSON field: `undefined` or a falsy value
yields the default `d`. -/
def jsOrElse (v : Option Json) (d : Json) : Json :=
  match v with
  | some j => if jsonTruthy j then j else d
  | none => d

/-- JavaScript property access `obj.k` on a parsed JSON value: the last
binding for the key wins (later duplicate keys overwrite earlier ones);
access on a non-object or a missing key is `undefined` (`none`). -/
def getField (j : Json) (k : String) : Option Json :=
  match j with
  | .obj fs => fs.foldl (fun acc p => if p.1 = k then some p.2 else acc) none
  | _ => none

/-- Escaping of one character inside a string literal produced by the host
primitive `JSON.stringify` (the escapes relevant to this development). -/
def escChar (c : Char) : List Char :=
  if c = '"' then ['\\', '"']
  else if c = '\\' then ['\\', '\\']
  else if c = '\n' then ['\\', 'n']
  else if c = '\t' then ['\\', 't']
  else if c = '\r' then ['\\', 'r']
  else [c]

/-- The body of a stringified JSON string literal. -/
def escapeString (s : String) : String := String.mk (s.data.flatMap escChar)

mutual

/-- Model of the host primitive `JSON.stringify` on parsed JSON values
(`Modelled from the spec:` the host serialization is not repository code). -/
def jsonStringify : Json → String
  | .null => "null"
  | .bool true => "true"
  | .bool false => "false"
  | .num n => toString n
  | .str s => "\"" ++ escapeString s ++ "\""
  | .arr xs => "[" ++ stringifyList xs ++ "]"
  | .obj fs => "\x7b" ++ stringifyFields fs ++ "\x7d"

/-- Comma-separated stringification of array elements. -/
def stringifyList : List Json → String
  | [] => ""
  | [x] => jsonStringify x
  | x :: y :: xs => jsonStringify x ++ "," ++ stringifyList (y :: xs)

/-- Comma-separated stringification of object fields. -/
def stringifyFields : List (String × Json) → String
  | [] => ""
  | [(k, v)] => "\"" ++ escapeString k ++ "\":" ++ jsonStringify v
  | (k, v) :: g :: fs =>
    "\"" ++ escapeString k ++ "\":" ++ jsonStringify v ++ "," ++ stringifyFields (g :: fs)

end

mutual

/-- JavaScript string coercion `String(v)` as applied by `Array.join` to a
non-string truthy `item.text` value (approximate on nested exotic values;
none of the verified properties depend on it). -/
def jsToString : Json → String
  | .null => "null"
  | .bool true => "true"
  | .bool false => "false"
  | .num n => toString n
  | .str s => s
  | .arr xs => jsToStringList xs
  | .obj _ => "[object Object]"

/-- `Array.prototype.toString`: elements coerced and comma-joined. -/
def jsToStringList : List Json → String
  | [] => ""
  | [x] => jsToString x
  | x :: y :: xs => jsToString x ++ "," ++ jsToStringList (y :: xs)

end

/-- JSON whitespace: space, tab, line feed, carriage return. -/
def isJsonWs (c : Char) : Bool := c = ' ' || c = '\t' || c = '\n' || c = '\r'

/-- Skip leading JSON whitespace. -/
def skipWs (cs : List Char) : List Char := cs.dropWhile isJsonWs

/-- Value of a hexadecimal digit. -/
def hexVal (c : Char) : Option Nat :=
  if '0' ≤ c ∧ c ≤ '9' then some (c.toNat - '0'.toNat)
  else if 'a' ≤ c ∧ c ≤ 'f' then some (c.toNat - 'a'.toNat + 10)
  else if 'A' ≤ c ∧ c ≤ 'F' then some (c.toNat - 'A'.toNat + 10)
  else none

/-- Decoding of a single-character escape after a backslash in a JSON
string. -/
def escDecode (c : Char) : Option Char :=
  if c = '"' then some '"'
  else if c = '\\' then some '\\'
  else if c = '/' then some '/'
  else if c = 'n' then some '\n'
  else if c = 't' then some '\t'
  else if c = 'r' then some '\r'
  else if c = 'b' then some (Char.ofNat 8)
  else if c = 'f' then some (Char.ofNat 12)
  else none

/-- Parse the body of a JSON string after the opening quote, accumulating
decoded characters; returns the string and the remaining input. -/
def parseStringBody : Nat → List Char → List Char → Option (String × List Char)
  | 0, _, _ => none
  | _ + 1, [], _ => none
  | f + 1, c :: rest, acc =>
    if c = '"' then some (String.mk acc.reverse, rest)
    else if c = '\\' then
      match rest with
      | [] => none
      | 'u' :: h1 :: h2 :: h3 :: h4 :: rest2 =>
        match hexVal h1, hexVal h2, hexVal h3, hexVal h4 with
        | some a, some b, some c2, some d =>
          parseStringBody f rest2 (Char.ofNat (((a * 16 + b) * 16 + c2) * 16 + d) :: acc)
        | _, _, _, _ => none
      | e :: rest2 =>
        match escDecode e with
        | some d => parseStringBody f rest2 (d :: acc)
        | none => none
    else parseStringBody f rest (c :: acc)

/-- Read a run of decimal digits, returning the accumulated value and the
remaining input. -/
def digitsVal (acc : Nat) : List Char → Nat × List Char
  | c :: rest =>
    if c.isDigit then digitsVal (acc * 10 + (c.toNat - '0'.toNat)) rest
    else (acc, c :: rest)
  | [] => (acc, [])

/-- Integer-only model of the JSON number grammar: an optional minus sign
followed by a digit run (fractions and exponents are not needed by any
verified property). -/
def parseNumber : List Char → Option (Json × List Char)
  | '-' :: c :: rest =>
    if c.isDigit then
      let p := digitsVal 0 (c :: rest)
      some (.num (-(Int.ofNat p.1)), p.2)
    else none
  | c :: rest =>
    if c.isDigit then
      let p := digitsVal 0 (c :: rest)
      some (.num (Int.ofNat p.1), p.2)
    else none
  | [] => none

mutual

/-- Recursive-descent JSON value parser; the fuel argument makes
termination manifest and is over-provisioned by the entry point
`jsonParse`. Expects its input to start at a non-whitespace character. -/
def parseValue : Nat → List Char → Option (Json × List Char)
  | 0, _ => none
  | f + 1, cs =>
    match cs with
    | [] => none
    | c :: rest =>
      if c = '"' then
        match parseStringBody (rest.length + 1) rest [] with
        | some (s, r) => some (.str s, r)
        | none => none
      else if c = '\x7b' then
        match skipWs rest with
        | '\x7d' :: r => some (.obj [], r)
        | cs2 => parseMembers f cs2 []
      else if c = '[' then
        match skipWs rest with
        | ']' :: r => some (.arr [], r)
        | cs2 => parseElems f cs2 []
      else if c = 't' then
        if rest.take 3 = ['r', 'u', 'e'] then some (.bool true, rest.drop 3) else none
      else if c = 'f' then
        if rest.take 4 = ['a', 'l', 's', 'e'] then some (.bool false, rest.drop 4) else none
      else if c = 'n' then
        if rest.take 3 = ['u', 'l', 'l'] then some (.null, rest.drop 3) else none
      else parseNumber cs

/-- Parse the members of a JSON object after the opening brace (input
starts at the first key). -/
def parseMembers : Nat → List Char → List (String × Json) → Option (Json × List Char)
  | 0, _, _ => none
  | f + 1, cs, acc =>
    match cs with
    | '"' :: rest =>
      match parseStringBody (rest.length + 1) rest [] with
      | some (k, r1) =>
        match skipWs r1 with
        | ':' :: r2 =>
          match parseValue f (skipWs r2) with
          | some (v, r3) =>
            match skipWs r3 with
            | ',' :: r4 => parseMembers f (skipWs r4) (acc ++ [(k, v)])
            | '\x7d' :: r4 => some (.obj (acc ++ [(k, v)]), r4)
            | _ => none
          | none => none
        | _ => none
      | none => none
    | _ => none

/-- Parse the elements of a JSON array after the opening bracket (input
starts at the first element). -/
def parseElems : Nat → List Char → List Json → Option (Json × List Char)
  | 0, _, _ => none
  | f + 1, cs, acc =>
    match parseValue f cs with
    | some (v, r1) =>
      match skipWs r1 with
      | ',' :: r2 => parseElems f (skipWs r2) (acc ++ [v])
      | ']' :: r2 => some (.arr (acc ++ [v]), r2)
      | _ => none
    | none => none

end

/-- Model of the host primitive `JSON.parse`: parse one JSON value and
require only whitespace after it; `none` models a thrown `SyntaxError`.
(`Modelled from the spec:` the host parser is not repository code; numbers
are restricted to integers.) -/
def jsonParse (s : String) : Option Json :=
  match parseValue (4 * (s.data.length + 1)) (skipWs s.data) with
  | some (v, rest) => if (skipWs rest).isEmpty then some v else none
  | none => none

/-- The prefix of `cs` that ends at the last right brace of `cs`, if `cs`
contains one — the greedy tail of the extraction regex. -/
def toLastRBrace (cs : List Char) : Option (List Char) :=
  let t := cs.reverse.dropWhile (fun c => c ≠ '\x7d')
  if t.isEmpty then none else some t.reverse

/-- The regex match on the character list: the greedy match starts at the
first left brace and extends to the last right brace of the whole text;
there is no match when no right brace follows the first left brace. -/
def regexMatchData : List Char → Option (List Char)
  | [] => none
  | c :: rest =>
    if c = '\x7b' then (toLastRBrace rest).map (fun p => '\x7b' :: p)
    else regexMatchData rest

/-- `content.match(...)` with the brace-extraction regex used by
`parseSummaryFromMessage` (first left brace through last right brace,
matching any characters in between, greedily). -/
def jsonMatch (content : String) : Option String :=
  (regexMatchData content.data).map String.mk

/-- The `RepoSummary` record assembled by `parseSummaryFromMessage`. The
three summary fields hold whatever JSON values the decoded payload
supplied (TypeScript does not check field shapes at runtime), so they are
modelled as `Json` values. -/
structure RepoSummary where
  repoName : String
  owner : String
  overallSummary : Json
  pullRequests : Json
  breakingChanges : Json

/-- `OpenAIAgent.parseSummaryFromMessage`: locate the brace-extraction
regex match in the text, decode it with `JSON.parse`, and build the
summary with falsy-defaulted fields; on no match or a parse error, fall
back to the degraded summary whose narrative is the raw text (or the
placeholder for empty text) with empty lists. -/
def parseSummaryFromMessage (content : String) (owner repo : String) : RepoSummary :=
  match jsonMatch content with
  | some m =>
    match jsonParse m with
    | some parsed =>
      { repoName := repo
        owner := owner
        overallSummary := jsOrElse (getField parsed "overallSummary") (.str "No summary provided")
        pullRequests := jsOrElse (getField parsed "pullRequests") (.arr [])
        breakingChanges := jsOrElse (getField parsed "breakingChanges") (.arr []) }
    | none =>
      { repoName := repo
        owner := owner
        overallSummary := .str (if content.isEmpty then "No summary provided" else content)
        pullRequests := .arr []
        breakingChanges := .arr [] }
  | none =>
    { repoName := repo
      owner := owner
      overallSummary := .str (if content.isEmpty then "No summary provided" else content)
      pullRequests := .arr []
      breakingChanges := .arr [] }

/-- Substring containment on character lists, the model of
`String.prototype.includes`. -/
def containsSeq (needle : List Char) : List Char → Bool
  | [] => needle.isEmpty
  | c :: t => needle.isPrefixOf (c :: t) || containsSeq needle t

/-- `s.includes(sub)`. -/
def hasSubstr (s sub : String) : Bool := containsSeq sub.data s.data

/-- An assistant response message from the reasoning service
(`response.choices[0].message`): optional text content plus the requested
tool calls (an absent `tool_calls` field is the empty list). -/
structure AssistantMsg where
  content : Option String
  tool_calls : List ToolCall
  deriving DecidableEq, Repr

/-- `MCPToolResult` of `src/mcp-client.ts`: ordered content segments (each
a JSON object, typically with `type` and `text` fields) plus the optional
`isError` flag. -/
structure MCPToolResult where
  content : List Json
  isError : Option Bool

/-- Terminal errors thrown by `summarizeRepo`: the missing-response error
(`"No response from OpenAI"`), the iteration-cap error (`"Max iterations
reached..."`), and an uncaught `SyntaxError` escaping from `JSON.parse` on
a malformed tool-call argument payload — in the source that parse sits
outside the `try` block guarding tool invocation. -/
inductive AgentErr where
  | noResponse : AgentErr
  | maxIterations : AgentErr
  | argParse : String → AgentErr
  deriving DecidableEq, Repr

/-- The text extracted from one MCP result segment by the loop:
`item.text || JSON.stringify(item)`. -/
def segText (item : Json) : String :=
  match getField item "text" with
  | some t => if jsonTruthy t then jsToString t else jsonStringify item
  | none => jsonStringify item

/-- The tool-result message appended for one successfully dispatched tool
call: join the segment texts with newlines, truncate with the tighter
budget for tools whose name includes `diff` or `files` and twice that
budget otherwise, and fall back to the stringified segments when the
resulting text is empty (`textContent || JSON.stringify(result.content)`). -/
def successToolMsg (tc : ToolCall) (result : MCPToolResult) : Msg :=
  let textContent := String.intercalate "\n" (result.content.map segText)
  let textContent :=
    if hasSubstr tc.name "diff" || hasSubstr tc.name "files" then
      truncateContent textContent MAX_TOOL_RESULT_TOKENS
    else
      truncateContent textContent (MAX_TOOL_RESULT_TOKENS * 2)
  Msg.tool tc.id (if textContent.isEmpty then jsonStringify (.arr result.content) else textContent)

/-- `toolCall.function.arguments || "\x7b\x7d"`: an empty argument string
falls back to the two-character empty-object source. -/
def argSource (tc : ToolCall) : String :=
  if tc.arguments.isEmpty then "\x7b\x7d" else tc.arguments

/-- The one tool-result message produced for a dispatched tool call: an
`isError` result envelope yields the stringified segments, a successful
envelope yields the joined and truncated text, and a thrown invocation
error (`Except.error`) is caught and yields `Error: <message>`. -/
def toolResponseMsg (host : String → Json → Except String MCPToolResult)
    (tc : ToolCall) (args : Json) : Msg :=
  match host tc.name args with
  | .ok result =>
    if result.isError.getD false then
      Msg.tool tc.id (jsonStringify (.arr result.content))
    else successToolMsg tc result
  | .error errorMsg => Msg.tool tc.id ("Error: " ++ errorMsg)

/-- Dispatch the tool calls of one assistant message in order, appending
exactly one tool-result message per call (every outcome — error envelope,
success, thrown invocation error — appends one message, see
`toolResponseMsg`). A malformed argument payload (a `JSON.parse` failure)
aborts the whole round, because in the source the parse sits outside the
`try`/`catch`. -/
def processToolCalls (host : String → Json → Except String MCPToolResult) :
    List ToolCall → List Msg → Except AgentErr (List Msg)
  | [], ms => .ok ms
  | tc :: rest, ms =>
    match jsonParse (argSource tc) with
    | none => .error (.argParse tc.arguments)
    | some args => processToolCalls host rest (ms ++ [toolResponseMsg host tc args])

/-- `OpenAIAgent.buildSystemPrompt` (the two dates are pre-rendered
`yyyy-MM-dd` strings; the `format` calls are external `date-fns` code). -/
def buildSystemPrompt (owner repo startDateStr endDateStr : String) : String :=
  "You are an AI assistant helping to generate a newsletter summary for GitHub repository "
    ++ owner ++ "/" ++ repo
    ++ ".\n\nYou have access to GitHub MCP tools that allow you to:\n- List pull requests\n- Get pull request details\n- Get pull request diffs\n- Get files changed in pull requests\n- List commits\n\nYour task is to summarize all pull requests that were closed/merged between "
    ++ startDateStr ++ " and " ++ endDateStr
    ++ ".\n\nUse the GitHub MCP tools to gather information about the pull requests, then provide a comprehensive summary."

/-- `OpenAIAgent.buildUserPrompt` (dates pre-rendered as for the system
prompt; the embedded JSON example is part of the literal template). -/
def buildUserPrompt (owner repo startDateStr endDateStr : String) : String :=
  "Summarize all pull requests that were closed/merged in "
    ++ owner ++ "/" ++ repo ++ " between " ++ startDateStr ++ " and " ++ endDateStr
    ++ ".\n\nUse the GitHub MCP tools to:\n1. Fetch all pull requests that were closed/merged in the timeframe\n2. For each PR, get details (number, title, author, merged date, description)\n3. For large PRs, focus on file names and summary rather than full diffs\n4. Generate a 1-2 sentence summary for each PR\n5. Identify any high-risk or breaking changes\n\nIMPORTANT: If PR diffs are very large, focus on:\n- File names changed\n- High-level summary of changes\n- Key functionality affected\n- Avoid including full diff content unless necessary\n\nProvide your response in this JSON format:\n\x7b\n  \"overallSummary\": \"2-3 sentence summary of the week\x27s activity\",\n  \"pullRequests\": [\n    \x7b\n      \"number\": 123,\n      \"title\": \"PR title\",\n      \"author\": \"username\",\n      \"mergedDate\": \"2024-01-15\",\n      \"url\": \"https://github.com/owner/repo/pull/123\",\n      \"summary\": \"1-2 sentence summary of what this PR does\"\n    \x7d\n  ],\n  \"breakingChanges\": [\n    \x7b\n      \"prNumber\": 125,\n      \"description\": \"Description of breaking change\"\n    \x7d\n  ]\n\x7d"

/-- The initial conversation of one `summarizeRepo` run: the system prompt
followed by the user prompt. -/
def initialMessages (owner repo startDateStr endDateStr : String) : List Msg :=
  [Msg.system (buildSystemPrompt owner repo startDateStr endDateStr),
   Msg.user (buildUserPrompt owner repo startDateStr endDateStr)]

/-- One full run of the `while (iteration < maxIterations)` loop of
`summarizeRepo`, instrumented with the trace of the message lists actually
sent to the reasoning service (after pruning). `fuel` counts the remaining
iterations (`maxIterations - iteration`); running out of fuel is the
`"Max iterations reached"` error. The `oracle` argument models
`openai.chat.completions.create` followed by `response.choices[0]?.message`
(`none` is the `"No response from OpenAI"` error), and `host` models
`mcpClient.callTool` with `Except.error` a thrown exception. -/
def runRounds (oracle : List Msg → Option AssistantMsg)
    (host : String → Json → Except String MCPToolResult)
    (owner repo : String) :
    Nat → List Msg → Except AgentErr RepoSummary × List (List Msg)
  | 0, _ => (.error .maxIterations, [])
  | fuel + 1, messages =>
    let sent := budgetMessages messages
    match oracle sent with
    | none => (.error .noResponse, [sent])
    | some message =>
      if message.tool_calls.isEmpty then
        (.ok (parseSummaryFromMessage (message.content.getD "") owner repo), [sent])
      else
        match processToolCalls host message.tool_calls
            (sent ++ [Msg.assistant message.content message.tool_calls]) with
        | .error e => (.error e, [sent])
        | .ok ms3 =>
          let r := runRounds oracle host owner repo fuel ms3
          (r.1, sent :: r.2)

/-- `OpenAIAgent.summarizeRepo`: build the prompts, seed the conversation,
and run the tool-calling loop for at most 20 rounds. -/
def summarizeRepo (oracle : List Msg → Option AssistantMsg)
    (host : String → Json → Except String MCPToolResult)
    (owner repo startDateStr endDateStr : String) : Except AgentErr RepoSummary :=
  (runRounds oracle host owner repo 20 (initialMessages owner repo startDateStr endDateStr)).1

/-- The message lists actually sent to the reasoning service during one
`summarizeRepo` run, in order, one per round. -/
def summarizeRepoTrace (oracle : List Msg → Option AssistantMsg)
    (host : String → Json → Except String MCPToolResult)
    (owner repo startDateStr endDateStr : String) : List (List Msg) :=
  (runRounds oracle host owner repo 20 (initialMessages owner repo startDateStr endDateStr)).2

/-- The result envelope returned by the underlying MCP SDK client's
`callTool`: the content segments may be absent (`result.content || []`). -/
structure SdkCallResult where
  content : Option (List Json)

/-- `{...args}`: an own-property spread copy; spreading a non-object
primitive produces an empty object (the index-property spread of string
primitives is not modelled; no verified property depends on it). -/
def spreadObj (args : Json) : Json :=
  match args with
  | .obj fs => .obj fs
  | _ => .obj []

/-- `adjustedArgs.method = v`: overwrite an existing binding in place or
append a new one. -/
def setField (args : Json) (k : String) (v : Json) : Json :=
  match args with
  | .obj fs =>
    if fs.any (fun p => p.1 = k) then
      .obj (fs.map (fun p => if p.1 = k then (k, v) else p))
    else .obj (fs ++ [(k, v)])
  | _ => .obj [(k, v)]

/-- `GitHubMCPClient.mapToolNameAndArgs`: map the OpenAI-facing function
names to concrete MCP tool names, patching a `method` argument for the
`pull_request_read` family; unknown names fall through with the
`mcp_GitHub_` name stripped when present. -/
def mapToolNameAndArgs (openAIToolName : String) (args : Json) : String × Json :=
  let adjustedArgs := spreadObj args
  if openAIToolName = "mcp_GitHub_list_pull_requests" then
    ("list_pull_requests", adjustedArgs)
  else if openAIToolName = "mcp_GitHub_get_pull_request" then
    ("pull_request_read", setField adjustedArgs "method" (.str "get"))
  else if openAIToolName = "mcp_GitHub_get_pull_request_diff" then
    ("pull_request_read", setField adjustedArgs "method" (.str "diff"))
  else if openAIToolName = "mcp_GitHub_get_pull_request_files" then
    ("pull_request_read", setField adjustedArgs "method" (.str "files"))
  else if openAIToolName = "mcp_GitHub_list_commits" then
    ("list_commits", adjustedArgs)
  else if openAIToolName = "list_org_repositories" || hasSubstr openAIToolName "org_repo" then
    ("list_org_repositories", adjustedArgs)
  else
    (if openAIToolName.startsWith "mcp_GitHub_" then openAIToolName.drop 11
     else openAIToolName, adjustedArgs)

/-- `GitHubMCPClient.callTool`: throws `"MCP client not connected"` when no
client is connected (`connected` models `this.client !== null`); otherwise
maps the tool name and arguments and invokes the SDK client (`sdkCall`,
with `Except.error` a thrown exception), normalizing a missing `content`
to the empty segment list, and converting any thrown invocation error into
an `isError: true` envelope carrying a readable message segment. -/
def callTool (connected : Bool)
    (sdkCall : String → Json → Except String SdkCallResult)
    (toolName : String) (args : Json) : Except String MCPToolResult :=
  if !connected then .error "MCP client not connected"
  else
    let mapped := mapToolNameAndArgs toolName args
    match sdkCall mapped.1 mapped.2 with
    | .ok result => .ok { content := result.content.getD [], isError := some false }
    | .error error =>
      .ok { content := [Json.obj [("type", .str "text"),
              ("text", .str ("Error calling tool " ++ toolName ++ ": " ++ error))]],
            isError := some true }

/-- The tool-call ids carried by one message (only assistant messages
carry ToolCallRequests). -/
def Msg.callIds : Msg → List String
  | .assistant _ tcs => tcs.map ToolCall.id
  | _ => []

/-- The tool-call id a message answers (only tool-result messages answer
one, via their `tool_call_id`). -/
def Msg.resultIds : Msg → List String
  | .tool tid _ => [tid]
  | _ => []

/-- All ToolCallRequest ids of a conversation, in order. -/
def toolCallIds (ms : List Msg) : List String := ms.flatMap Msg.callIds

/-- All answered (`tool_call_id`) ids of a conversation, in order. -/
def toolResultIds (ms : List Msg) : List String := ms.flatMap Msg.resultIds

/-- Every id occurring in a conversation, as a request or as an answer. -/
def usedIds (ms : List Msg) : List String := toolCallIds ms ++ toolResultIds ms

/-- Every ToolCallRequest of the conversation is answered by exactly one
tool-result message, associated by its id. -/
def answered (ms : List Msg) : Prop :=
  ∀ cid ∈ toolCallIds ms, (toolResultIds ms).count cid = 1

/-- The first message of the conversation is a system message. -/
def headIsSystem : List Msg → Prop
  | Msg.system _ :: _ => True
  | _ => False

/-- Every suffix of the conversation is answered — the loop invariant:
tool results always directly follow their requests, so the recent-suffix
pruning of `budgetMessages` preserves answeredness. -/
def AnsweredSuffixes (ms : List Msg) : Prop := ∀ s, s <:+ ms → answered s

/-- A reasoning-service stub for the answered-invariant witness: it
requests one tool call with the fixed id until that id appears in the
conversation, then finishes without tool calls — so its ids are always
fresh for the conversation it answers. -/
def freshToolOracle : List Msg → Option AssistantMsg :=
  fun ms =>
    if "call_1" ∈ usedIds ms then some ⟨some "done", []⟩
    else some ⟨none, [⟨"call_1", "mcp_GitHub_list_pull_requests", "\x7b\x7d"⟩]⟩

/-- A single-message conversation whose token estimate (20001) exceeds the
pruning ceiling: 80004 copies of the character `a` as the system prompt. -/
def bigA : String := String.mk (List.replicate 80004 'a')

/-- The over-budget one-message conversation used to show that pruning can
increase the summed estimate (the system message gets duplicated). -/
def overBudgetMsgs : List Msg := [Msg.system bigA]

/-- A six-message over-budget conversation, used as a witness for the
amended pruning property. -/
def overBudgetMsgs6 : List Msg :=
  [Msg.system bigA, Msg.user "u1", Msg.user "u2", Msg.user "u3",
   Msg.user "u4", Msg.user "u5"]

/-- The extraction input exhibiting the greedy (not first-well-formed)
match: a well-formed payload followed by a second, empty object. -/
def greedyCex : String := "\x7b\"overallSummary\":\"x\"\x7d \x7b\x7d"

/-- The reasoning-service stub that immediately answers with final text and
no tool calls. -/
def oracleDone : List Msg → Option AssistantMsg := fun _ => some ⟨some "done", []⟩

/-- A capability host stub that always succeeds with an empty segment
list. -/
def hostOk : String → Json → Except String MCPToolResult :=
  fun _ _ => .ok ⟨[], some false⟩

/-- The reasoning-service stub that requests one tool call (with an empty
object argument payload) on every round. -/
def alwaysToolOracle : List Msg → Option AssistantMsg :=
  fun _ => some ⟨none, [⟨"call_1", "mcp_GitHub_list_pull_requests", "\x7b\x7d"⟩]⟩

/-- The reasoning-service stub whose single tool call carries a malformed
argument payload. -/
def badArgsOracle : List Msg → Option AssistantMsg :=
  fun _ => some ⟨none, [⟨"call_1", "mcp_GitHub_list_pull_requests", "not json"⟩]⟩

/-- The SDK stub whose invocation always throws. -/
def sdkBoom : String → Json → Except String SdkCallResult := fun _ _ => .error "boom"

theorem data_length (s : String) : s.data.length = s.length := by
  cases s; rfl

theorem length_mk (l : List Char) : (String.mk l).length = l.length := rfl

/-- **C6.** `truncateContent` is idempotent: truncating an already-truncated
text with the same budget leaves it unchanged — the second pass cuts at the
same character position and appends the identical marker. -/
theorem truncateContent_idem (t : String) (b : Nat) :
    truncateContent (truncateContent t b) b = truncateContent t b := by
  by_cases h : estimateTokens t ≤ b
  · simp [truncateContent, h]
  · have hlen : 4 * b + 1 ≤ t.data.length := by
      rw [data_length]
      unfold estimateTokens at h
      omega
    have hr : truncateContent t b = String.mk (t.data.take (b * 4)) ++ truncMarker := by
      simp [truncateContent, h]
    rw [hr]
    have hrdata : (String.mk (t.data.take (b * 4)) ++ truncMarker).data
        = t.data.take (b * 4) ++ truncMarker.data := by simp
    have htake : (t.data.take (b * 4)).length = b * 4 := by
      rw [List.length_take]; omega
    have hmlen : truncMarker.data.length = 43 := by decide
    have hrlen : (String.mk (t.data.take (b * 4)) ++ truncMarker).length = b * 4 + 43 := by
      rw [← data_length, hrdata, List.length_append, htake, hmlen]
    have hest : ¬ estimateTokens (String.mk (t.data.take (b * 4)) ++ truncMarker) ≤ b := by
      unfold estimateTokens; rw [hrlen]; omega
    have htake2 : (String.mk (t.data.take (b * 4)) ++ truncMarker).data.take (b * 4)
        = t.data.take (b * 4) := by
      rw [hrdata, List.take_append_eq_append_take, htake, Nat.sub_self,
        List.take_zero, List.append_nil, List.take_take, Nat.min_self]
    show truncateContent (String.mk (t.data.take (b * 4)) ++ truncMarker) b
        = String.mk (t.data.take (b * 4)) ++ truncMarker
    rw [truncateContent, if_neg hest, htake2]

/-- **C5 counterexample.** `truncateContent` can return a string strictly
longer than its input: on the one-character text `"a"` with budget `0`, the
result is the 43-character truncation marker. -/
theorem truncateContent_can_grow :
    ¬ ((truncateContent "a" 0).length ≤ "a".length) := by decide

/-- **C5 (amended).** `truncateContent` is total, returns the text unchanged
when its estimate fits the budget, and otherwise cuts to `maxTokens * 4`
characters and appends the fixed 43-character marker; hence its length is
bounded by `max` of the original length and `maxTokens * 4 + 43`, but can
exceed the original length. -/
theorem truncateContent_spec (content : String) (maxTokens : Nat) :
    (estimateTokens content ≤ maxTokens → truncateContent content maxTokens = content) ∧
    (¬ estimateTokens content ≤ maxTokens →
      truncateContent content maxTokens =
        String.mk (content.data.take (maxTokens * 4)) ++ truncMarker) ∧
    (truncateContent content maxTokens).length
      ≤ max content.length (maxTokens * 4 + truncMarker.length) := by
  refine ⟨?_, ?_, ?_⟩
  · intro h; simp [truncateContent, h]
  · intro h; simp [truncateContent, h]
  · by_cases h : estimateTokens content ≤ maxTokens
    · simp only [truncateContent, if_pos h]
      exact le_max_left _ _
    · simp only [truncateContent, if_neg h]
      refine le_trans ?_ (le_max_right _ _)
      rw [← data_length]
      simp only [String.data_append, List.length_append, length_mk]
      have : (content.data.take (maxTokens * 4)).length ≤ maxTokens * 4 := by
        rw [List.length_take]; omega
      have hm : truncMarker.data.length = truncMarker.length := data_length _
      omega

/-- Witness for `truncateContent_spec` at the concrete inputs
`("abcd", 1)` (estimate `1` fits the budget) and `("a", 0)` (over budget:
cut and marker). -/
theorem truncateContent_spec_witness :
    truncateContent "abcd" 1 = "abcd" ∧
    truncateContent "a" 0 = String.mk ("a".data.take (0 * 4)) ++ truncMarker ∧
    (truncateContent "abcd" 1).length ≤ max "abcd".length (1 * 4 + truncMarker.length) :=
  ⟨(truncateContent_spec "abcd" 1).1 (by decide),
    (truncateContent_spec "a" 0).2.1 (by decide),
    (truncateContent_spec "abcd" 1).2.2⟩

theorem totalMessageSize_eq_sum (l : List Msg) :
    totalMessageSize l = (l.map fun m => estimateTokens m.sizeText).sum := by
  have aux : ∀ (l : List Msg) (a : Nat),
      l.foldl (fun sum msg => sum + estimateTokens msg.sizeText) a
        = a + (l.map fun m => estimateTokens m.sizeText).sum := by
    intro l
    induction l with
    | nil => intro a; simp
    | cons x xs ih => intro a; simp [ih, Nat.add_assoc]
  simpa using aux l 0

theorem sum_drop_le (l : List Nat) (n : Nat) : (l.drop n).sum ≤ l.sum := by
  induction l generalizing n with
  | nil => simp
  | cons x xs ih =>
    cases n with
    | zero => simp
    | succ k => simpa using le_trans (ih k) (Nat.le_add_left _ _)

theorem estimateTokens_eq (s : String) : estimateTokens s = (s.length + 3) / 4 := rfl

theorem bigA_length : bigA.length = 80004 := by
  rw [bigA, length_mk]
  exact List.length_replicate _ _

theorem estimate_bigA : estimateTokens bigA = 20001 := by
  rw [estimateTokens_eq, bigA_length]

/-- **C4 counterexample.** On an over-budget conversation with fewer than
six messages the pruning step duplicates the system message and the summed
token estimate strictly grows: a single 80004-character system message
estimates to 20001 tokens (over the 20000 ceiling), and pruning returns
that message twice, estimating to 40002. -/
theorem budgetMessages_can_grow :
    MAX_TOTAL_MESSAGE_TOKENS < totalMessageSize overBudgetMsgs ∧
    ¬ (totalMessageSize (budgetMessages overBudgetMsgs) ≤ totalMessageSize overBudgetMsgs) := by
  have h1 : totalMessageSize overBudgetMsgs = 20001 := by
    rw [totalMessageSize_eq_sum]
    simp only [overBudgetMsgs, List.map_cons, List.map_nil, Msg.sizeText,
      List.sum_cons, List.sum_nil, estimate_bigA]
    omega
  have hcond : MAX_TOTAL_MESSAGE_TOKENS < totalMessageSize overBudgetMsgs := by
    rw [h1]; norm_num [MAX_TOTAL_MESSAGE_TOKENS]
  refine ⟨hcond, ?_⟩
  have hb : budgetMessages overBudgetMsgs = [Msg.system bigA, Msg.system bigA] := by
    rw [budgetMessages, if_pos hcond]; rfl
  have h2 : totalMessageSize (budgetMessages overBudgetMsgs) = 40002 := by
    rw [hb, totalMessageSize_eq_sum]
    simp only [List.map_cons, List.map_nil, Msg.sizeText, List.sum_cons,
      List.sum_nil, estimate_bigA]
    omega
  rw [h1, h2]
  omega

/-- **C4 (amended).** On every over-budget conversation, pruning retains
message 0 (the system prompt) and the five most recent messages; whenever
the conversation has at least six messages, the summed token estimate of
the output is at most that of the input (for shorter conversations the
system message is duplicated and the sum can grow). -/
theorem budgetMessages_spec (msgs : List Msg)
    (h : MAX_TOTAL_MESSAGE_TOKENS < totalMessageSize msgs) :
    (∀ m ∈ msgs.take 1, m ∈ budgetMessages msgs) ∧
    (∀ m ∈ lastN 5 msgs, m ∈ budgetMessages msgs) ∧
    (6 ≤ msgs.length → totalMessageSize (budgetMessages msgs) ≤ totalMessageSize msgs) := by
  have hb : budgetMessages msgs = msgs.take 1 ++ lastN 5 msgs := by
    simp [budgetMessages, h]
  refine ⟨?_, ?_, ?_⟩
  · intro m hm; rw [hb]; exact List.mem_append_left _ hm
  · intro m hm; rw [hb]; exact List.mem_append_right _ hm
  · intro h6
    rw [hb, totalMessageSize_eq_sum, totalMessageSize_eq_sum, List.map_append,
      List.sum_append]
    conv_rhs => rw [← List.take_append_drop 1 msgs, List.map_append, List.sum_append]
    have hlast : lastN 5 msgs = (msgs.drop 1).drop (msgs.length - 6) := by
      show msgs.drop (msgs.length - 5) = (msgs.drop 1).drop (msgs.length - 6)
      rw [List.drop_drop]
      congr 1
      omega
    refine Nat.add_le_add_left ?_ _
    rw [hlast, List.map_drop]
    exact sum_drop_le _ _

/-- Witness for `budgetMessages_spec` on the concrete six-message
over-budget conversation `overBudgetMsgs6`. -/
theorem budgetMessages_spec_witness :
    Msg.user "u5" ∈ budgetMessages overBudgetMsgs6 ∧
    totalMessageSize (budgetMessages overBudgetMsgs6) ≤ totalMessageSize overBudgetMsgs6 := by
  have h : MAX_TOTAL_MESSAGE_TOKENS < totalMessageSize overBudgetMsgs6 := by
    have h20006 : totalMessageSize overBudgetMsgs6 = 20006 := by
      rw [totalMessageSize_eq_sum]
      simp only [overBudgetMsgs6, List.map_cons, List.map_nil, Msg.sizeText,
        List.sum_cons, List.sum_nil, estimate_bigA]
      decide
    rw [h20006]; norm_num [MAX_TOTAL_MESSAGE_TOKENS]
  have hmem : Msg.user "u5" ∈ lastN 5 overBudgetMsgs6 := by
    simp [lastN, overBudgetMsgs6]
  exact ⟨(budgetMessages_spec overBudgetMsgs6 h).2.1 _ hmem,
    (budgetMessages_spec overBudgetMsgs6 h).2.2 (by simp [overBudgetMsgs6])⟩

/-- **C7.** `parseSummaryFromMessage` is a total function (its embedding
never throws); whenever no brace-delimited match is found in the text, or
the matched payload fails to decode, it returns the degraded summary whose
narrative is the raw input text (the placeholder for empty text) and whose
pull-request and breaking-change lists are both empty. -/
theorem parseSummary_fallback (content owner repo : String)
    (h : ∀ m, jsonMatch content = some m → jsonParse m = none) :
    parseSummaryFromMessage content owner repo =
      { repoName := repo
        owner := owner
        overallSummary := .str (if content.isEmpty then "No summary provided" else content)
        pullRequests := .arr []
        breakingChanges := .arr [] } := by
  unfold parseSummaryFromMessage
  cases hm : jsonMatch content with
  | none => rfl
  | some m => simp only [h m hm]

/-- Witness for `parseSummary_fallback` on the brace-free text
`"hello"` and on the empty text. -/
theorem parseSummary_fallback_witness :
    parseSummaryFromMessage "hello" "own" "rep" =
      { repoName := "rep"
        owner := "own"
        overallSummary := .str "hello"
        pullRequests := .arr []
        breakingChanges := .arr [] } ∧
    parseSummaryFromMessage "" "own" "rep" =
      { repoName := "rep"
        owner := "own"
        overallSummary := .str "No summary provided"
        pullRequests := .arr []
        breakingChanges := .arr [] } :=
  ⟨parseSummary_fallback "hello" "own" "rep"
      (fun m hm => by rw [show jsonMatch "hello" = none from rfl] at hm; cases hm),
    parseSummary_fallback "" "own" "rep"
      (fun m hm => by rw [show jsonMatch "" = none from rfl] at hm; cases hm)⟩

/-- **C8 counterexample.** `greedyCex` contains a well-formed
brace-delimited JSON payload — its first brace-matched substring decodes to
an object whose `overallSummary` is `"x"` — yet the extractor does not
decode that first payload: the greedy regex grabs everything from the
first left brace to the last right brace, that substring fails to parse,
and the whole raw text comes back as the narrative instead of `"x"`. -/
theorem parseSummary_not_first_payload :
    jsonParse "\x7b\"overallSummary\":\"x\"\x7d" =
      some (.obj [("overallSummary", .str "x")]) ∧
    (parseSummaryFromMessage greedyCex "o" "r").overallSummary = .str greedyCex ∧
    greedyCex ≠ "x" :=
  ⟨rfl, rfl, by decide⟩

theorem isEmpty_mk_cons (c : Char) (l : List Char) :
    (String.mk (c :: l)).isEmpty = false := by
  have hpos : 0 < c.utf8Size := Char.utf8Size_pos c
  simp [String.isEmpty, String.endPos, String.Pos.ext_iff]
  omega

theorem isEmpty_mk_append_cons (pre : List Char) (c : Char) (l : List Char) :
    (String.mk (pre ++ c :: l)).isEmpty = false := by
  cases pre with
  | nil => exact isEmpty_mk_cons c l
  | cons p ps => rw [List.cons_append]; exact isEmpty_mk_cons p _

theorem dropWhile_append_of_all {p : Char → Bool} :
    ∀ (l₁ l₂ : List Char), (∀ c ∈ l₁, p c) →
      (l₁ ++ l₂).dropWhile p = l₂.dropWhile p := by
  intro l₁ l₂ h
  induction l₁ with
  | nil => rfl
  | cons c t ih =>
    have hc : p c = true := h c (by simp)
    simp only [List.cons_append, List.dropWhile_cons, hc, if_true]
    exact ih (fun c' h' => h c' (by simp [h']))

theorem regexMatchData_skip (l : List Char) :
    ∀ (pre : List Char), '\x7b' ∉ pre →
      regexMatchData (pre ++ l) = regexMatchData l := by
  intro pre hpre
  induction pre with
  | nil => rfl
  | cons c t ih =>
    have hc : ¬ (c = '\x7b') := fun h => hpre (by simp [h])
    simp only [List.cons_append, regexMatchData, if_neg hc]
    exact ih (fun h => hpre (by simp [h]))

theorem toLastRBrace_split (mid post : List Char) (hpost : '\x7d' ∉ post) :
    toLastRBrace (mid ++ '\x7d' :: post) = some (mid ++ ['\x7d']) := by
  unfold toLastRBrace
  have hrev : (mid ++ '\x7d' :: post).reverse = post.reverse ++ '\x7d' :: mid.reverse := by
    simp
  rw [hrev]
  have hall : ∀ c ∈ post.reverse, (fun c => decide (c ≠ '\x7d')) c = true := by
    intro c hc
    simp only [decide_eq_true_eq]
    intro h
    exact hpost (by rw [← h]; exact (List.mem_reverse).1 hc)
  rw [dropWhile_append_of_all _ _ hall]
  simp [List.dropWhile_cons]

/-- **C8 (amended).** The extractor's brace match is greedy rather than
first-well-formed: for a text decomposed as `pre ++ brace ++ mid ++
closingBrace ++ post` with no left brace in `pre` and no right brace in
`post`, the matched substring runs from that first left brace to the last
right brace of the whole text; when that substring decodes, the summary is
built from it with falsy-defaulted `overallSummary` (placeholder) and
`pullRequests`/`breakingChanges` (empty lists); when it does not decode,
the raw-text fallback is used even if an earlier balanced substring would
have decoded. -/
theorem parseSummary_greedy (pre mid post : List Char) (owner repo : String)
    (hpre : '\x7b' ∉ pre) (hpost : '\x7d' ∉ post) :
    jsonMatch (String.mk (pre ++ '\x7b' :: (mid ++ '\x7d' :: post)))
      = some (String.mk ('\x7b' :: (mid ++ ['\x7d']))) ∧
    (∀ parsed, jsonParse (String.mk ('\x7b' :: (mid ++ ['\x7d']))) = some parsed →
      parseSummaryFromMessage (String.mk (pre ++ '\x7b' :: (mid ++ '\x7d' :: post)))
          owner repo =
        { repoName := repo
          owner := owner
          overallSummary := jsOrElse (getField parsed "overallSummary")
            (.str "No summary provided")
          pullRequests := jsOrElse (getField parsed "pullRequests") (.arr [])
          breakingChanges := jsOrElse (getField parsed "breakingChanges") (.arr []) }) ∧
    (jsonParse (String.mk ('\x7b' :: (mid ++ ['\x7d']))) = none →
      parseSummaryFromMessage (String.mk (pre ++ '\x7b' :: (mid ++ '\x7d' :: post)))
          owner repo =
        { repoName := repo
          owner := owner
          overallSummary := .str (String.mk (pre ++ '\x7b' :: (mid ++ '\x7d' :: post)))
          pullRequests := .arr []
          breakingChanges := .arr [] }) := by
  have hmatch : jsonMatch (String.mk (pre ++ '\x7b' :: (mid ++ '\x7d' :: post)))
      = some (String.mk ('\x7b' :: (mid ++ ['\x7d']))) := by
    unfold jsonMatch
    show (regexMatchData (pre ++ '\x7b' :: (mid ++ '\x7d' :: post))).map String.mk = _
    rw [regexMatchData_skip _ pre hpre]
    simp only [regexMatchData, if_pos rfl]
    rw [toLastRBrace_split mid post hpost]
    rfl
  refine ⟨hmatch, ?_, ?_⟩
  · intro parsed hp
    unfold parseSummaryFromMessage
    rw [hmatch]
    simp only [hp]
  · intro hp
    unfold parseSummaryFromMessage
    rw [hmatch]
    simp only [hp, isEmpty_mk_append_cons, Bool.false_eq_true, if_false]

/-- Witness for `parseSummary_greedy` on the concrete texts
`" {"overallSummary":"x"} "` (a space, a decodable payload, a space) and
`"{x}"` (a greedy match that fails to decode). -/
theorem parseSummary_greedy_witness :
    parseSummaryFromMessage
        (String.mk ([' '] ++ '\x7b' :: ("\"overallSummary\":\"x\"".data ++ '\x7d' :: [' '])))
        "o" "r" =
      { repoName := "r"
        owner := "o"
        overallSummary := .str "x"
        pullRequests := .arr []
        breakingChanges := .arr [] } ∧
    parseSummaryFromMessage (String.mk ([] ++ '\x7b' :: (['x'] ++ '\x7d' :: []))) "o" "r" =
      { repoName := "r"
        owner := "o"
        overallSummary := .str (String.mk ([] ++ '\x7b' :: (['x'] ++ '\x7d' :: [])))
        pullRequests := .arr []
        breakingChanges := .arr [] } :=
  ⟨(parseSummary_greedy [' '] "\"overallSummary\":\"x\"".data [' '] "o" "r"
      (by decide) (by decide)).2.1 (.obj [("overallSummary", .str "x")]) rfl,
    (parseSummary_greedy [] ['x'] [] "o" "r"
      (by decide) (by decide)).2.2 rfl⟩

/-- **C10.** The returned summary's `owner` and `repoName` always equal the
arguments of the call — in the decoded branch, in the fallback branch, and
for every normally-returning run of the whole loop; any `owner` or
`repoName` fields inside the extracted payload are ignored. -/
theorem owner_repo_pinned (owner repo : String) :
    (∀ content, (parseSummaryFromMessage content owner repo).owner = owner ∧
      (parseSummaryFromMessage content owner repo).repoName = repo) ∧
    (∀ oracle host startDateStr endDateStr s,
      summarizeRepo oracle host owner repo startDateStr endDateStr = .ok s →
      s.owner = owner ∧ s.repoName = repo) := by
  have hparse : ∀ content, (parseSummaryFromMessage content owner repo).owner = owner ∧
      (parseSummaryFromMessage content owner repo).repoName = repo := by
    intro content
    unfold parseSummaryFromMessage
    split
    · split
      · exact ⟨rfl, rfl⟩
      · exact ⟨rfl, rfl⟩
    · exact ⟨rfl, rfl⟩
  refine ⟨hparse, ?_⟩
  intro oracle host startDateStr endDateStr s hs
  have main : ∀ fuel ms s, (runRounds oracle host owner repo fuel ms).1 = .ok s →
      s.owner = owner ∧ s.repoName = repo := by
    intro fuel
    induction fuel with
    | zero =>
      intro ms s h
      simp only [runRounds] at h
      cases h
    | succ f ih =>
      intro ms s h
      simp only [runRounds] at h
      cases ho : oracle (budgetMessages ms) with
      | none => rw [ho] at h; cases h
      | some message =>
        rw [ho] at h
        by_cases he : message.tool_calls.isEmpty
        · simp only [he, if_true] at h
          cases h
          exact hparse _
        · simp only [he, if_false] at h
          cases hp : processToolCalls host message.tool_calls
              (budgetMessages ms ++ [Msg.assistant message.content message.tool_calls]) with
          | error e => rw [hp] at h; cases h
          | ok ms3 =>
            rw [hp] at h
            exact ih ms3 s h
  exact main 20 _ s hs

/-- Witness for `owner_repo_pinned`: the extractor branch at the text
`"hi"` and the loop branch on a run with `oracleDone` that returns
normally. -/
theorem owner_repo_pinned_witness :
    (parseSummaryFromMessage "hi" "own" "rep").owner = "own" ∧
    (parseSummaryFromMessage "done" "own" "rep").owner = "own" ∧
    (parseSummaryFromMessage "done" "own" "rep").repoName = "rep" :=
  ⟨((owner_repo_pinned "own" "rep").1 "hi").1,
    ((owner_repo_pinned "own" "rep").2 oracleDone hostOk "2024-01-01" "2024-01-08"
      (parseSummaryFromMessage "done" "own" "rep") rfl).1,
    ((owner_repo_pinned "own" "rep").2 oracleDone hostOk "2024-01-01" "2024-01-08"
      (parseSummaryFromMessage "done" "own" "rep") rfl).2⟩

/-- **C9.** On a connected client, `callTool` never raises: it always
returns an envelope (`Except.ok`); every thrown invocation failure is
captured and returned as `isError: true` with a single readable text
segment `Error calling tool <name>: <message>`; a successful SDK result is
normalized (a missing `content` becomes the empty segment list) with
`isError: false`. On a never-connected client the guard throws
`"MCP client not connected"` before any invocation. -/
theorem callTool_captures_failures
    (sdkCall : String → Json → Except String SdkCallResult)
    (toolName : String) (args : Json) :
    (∃ r, callTool true sdkCall toolName args = .ok r) ∧
    (∀ e, sdkCall (mapToolNameAndArgs toolName args).1 (mapToolNameAndArgs toolName args).2
        = .error e →
      callTool true sdkCall toolName args =
        .ok { content := [Json.obj [("type", .str "text"),
                ("text", .str ("Error calling tool " ++ toolName ++ ": " ++ e))]],
              isError := some true }) ∧
    (∀ res, sdkCall (mapToolNameAndArgs toolName args).1 (mapToolNameAndArgs toolName args).2
        = .ok res →
      callTool true sdkCall toolName args =
        .ok { content := res.content.getD [], isError := some false }) ∧
    callTool false sdkCall toolName args = .error "MCP client not connected" := by
  refine ⟨?_, ?_, ?_, rfl⟩
  · unfold callTool
    cases h : sdkCall (mapToolNameAndArgs toolName args).1 (mapToolNameAndArgs toolName args).2 with
    | ok res =>
      have heq : callTool true sdkCall toolName args =
          .ok { content := res.content.getD [], isError := some false } := by
        unfold callTool
        simp [h]
      exact ⟨_, heq⟩
    | error e =>
      have heq : callTool true sdkCall toolName args =
          .ok { content := [Json.obj [("type", .str "text"),
                  ("text", .str ("Error calling tool " ++ toolName ++ ": " ++ e))]],
                isError := some true } := by
        unfold callTool
        simp [h]
      exact ⟨_, heq⟩
  · intro e he
    unfold callTool
    simp [he]
  · intro res hres
    unfold callTool
    simp [hres]

theorem runRounds_succ (oracle : List Msg → Option AssistantMsg)
    (host : String → Json → Except String MCPToolResult)
    (owner repo : String) (fuel : Nat) (ms : List Msg) :
    runRounds oracle host owner repo (fuel + 1) ms =
      match oracle (budgetMessages ms) with
      | none => (.error .noResponse, [budgetMessages ms])
      | some message =>
        if message.tool_calls.isEmpty then
          (.ok (parseSummaryFromMessage (message.content.getD "") owner repo),
            [budgetMessages ms])
        else
          match processToolCalls host message.tool_calls
              (budgetMessages ms ++ [Msg.assistant message.content message.tool_calls]) with
          | .error e => (.error e, [budgetMessages ms])
          | .ok ms3 =>
            ((runRounds oracle host owner repo fuel ms3).1,
              budgetMessages ms :: (runRounds oracle host owner repo fuel ms3).2) := by
  rfl

theorem runRounds_trace_le (oracle : List Msg → Option AssistantMsg)
    (host : String → Json → Except String MCPToolResult) (owner repo : String) :
    ∀ fuel ms, (runRounds oracle host owner repo fuel ms).2.length ≤ fuel := by
  intro fuel
  induction fuel with
  | zero => intro ms; simp [runRounds]
  | succ f ih =>
    intro ms
    rw [runRounds_succ]
    cases oracle (budgetMessages ms) with
    | none => simp
    | some message =>
      by_cases he : message.tool_calls.isEmpty
      · simp [he]
      · simp only [he, Bool.false_eq_true, if_false]
        cases processToolCalls host message.tool_calls
            (budgetMessages ms ++ [Msg.assistant message.content message.tool_calls]) with
        | error e => simp
        | ok ms3 =>
          simp only [List.length_cons]
          exact Nat.succ_le_succ (ih ms3)

theorem processToolCalls_ok_of_args (host : String → Json → Except String MCPToolResult) :
    ∀ tcs ms, (∀ tc ∈ tcs, jsonParse (argSource tc) ≠ none) →
      ∃ out, processToolCalls host tcs ms = .ok out := by
  intro tcs
  induction tcs with
  | nil => intro ms _; exact ⟨ms, rfl⟩
  | cons tc rest ih =>
    intro ms hall
    unfold processToolCalls
    cases hj : jsonParse (argSource tc) with
    | none => exact absurd hj (hall tc (List.mem_cons_self _ _))
    | some args => exact ih _ (fun tc2 h2 => hall tc2 (List.mem_cons_of_mem _ h2))

theorem runRounds_exhausts (oracle : List Msg → Option AssistantMsg)
    (host : String → Json → Except String MCPToolResult) (owner repo : String)
    (hresp : ∀ ms, oracle ms ≠ none)
    (htc : ∀ ms m, oracle ms = some m → m.tool_calls ≠ [])
    (hargs : ∀ ms m tc, oracle ms = some m → tc ∈ m.tool_calls →
      jsonParse (argSource tc) ≠ none) :
    ∀ fuel ms, (runRounds oracle host owner repo fuel ms).1 = .error .maxIterations ∧
      (runRounds oracle host owner repo fuel ms).2.length = fuel := by
  intro fuel
  induction fuel with
  | zero => intro ms; exact ⟨rfl, rfl⟩
  | succ f ih =>
    intro ms
    rw [runRounds_succ]
    cases ho : oracle (budgetMessages ms) with
    | none => exact absurd ho (hresp _)
    | some message =>
      have hne : ¬ (message.tool_calls.isEmpty = true) := by
        simp only [List.isEmpty_iff]
        exact htc _ _ ho
      obtain ⟨out, hout⟩ := processToolCalls_ok_of_args host message.tool_calls
        (budgetMessages ms ++ [Msg.assistant message.content message.tool_calls])
        (fun tc htc2 => hargs _ _ tc ho htc2)
      simp only [if_neg hne, hout]
      exact ⟨(ih out).1, by simp [(ih out).2]⟩

/-- **C2.** The tool-calling loop always terminates within the fixed cap:
the trace of rounds actually sent never exceeds 20; a response carrying
zero tool calls ends the loop that round with the extracted summary (on
round one for a stub that never requests tools); and when every response
carries at least one tool call (and the reasoning service always responds,
with argument payloads that parse), the loop runs exactly 20 rounds and
raises the terminal max-iterations error. -/
theorem loop_terminates_within_cap (oracle : List Msg → Option AssistantMsg)
    (host : String → Json → Except String MCPToolResult)
    (owner repo startDateStr endDateStr : String) :
    (summarizeRepoTrace oracle host owner repo startDateStr endDateStr).length ≤ 20 ∧
    (∀ m, oracle (budgetMessages (initialMessages owner repo startDateStr endDateStr))
        = some m → m.tool_calls = [] →
      summarizeRepo oracle host owner repo startDateStr endDateStr =
        .ok (parseSummaryFromMessage (m.content.getD "") owner repo) ∧
      summarizeRepoTrace oracle host owner repo startDateStr endDateStr =
        [budgetMessages (initialMessages owner repo startDateStr endDateStr)]) ∧
    ((∀ ms, oracle ms ≠ none) →
      (∀ ms m, oracle ms = some m → m.tool_calls ≠ []) →
      (∀ ms m tc, oracle ms = some m → tc ∈ m.tool_calls →
        jsonParse (argSource tc) ≠ none) →
      summarizeRepo oracle host owner repo startDateStr endDateStr =
        .error .maxIterations ∧
      (summarizeRepoTrace oracle host owner repo startDateStr endDateStr).length = 20) := by
  refine ⟨runRounds_trace_le oracle host owner repo 20 _, ?_, ?_⟩
  · intro m hm hempty
    unfold summarizeRepo summarizeRepoTrace
    rw [show (20 : Nat) = 19 + 1 from rfl, runRounds_succ, hm]
    simp [hempty]
  · intro h1 h2 h3
    exact ⟨(runRounds_exhausts oracle host owner repo h1 h2 h3 20 _).1,
      (runRounds_exhausts oracle host owner repo h1 h2 h3 20 _).2⟩

/-- Witness for `loop_terminates_within_cap`: the always-calling stub
exhausts the cap with the max-iterations error; the never-calling stub
terminates on round one with the extracted summary. -/
theorem loop_terminates_within_cap_witness :
    summarizeRepo alwaysToolOracle hostOk "o" "r" "2024-01-01" "2024-01-08" =
      .error .maxIterations ∧
    summarizeRepo oracleDone hostOk "o" "r" "2024-01-01" "2024-01-08" =
      .ok (parseSummaryFromMessage "done" "o" "r") :=
  ⟨((loop_terminates_within_cap alwaysToolOracle hostOk "o" "r" "2024-01-01"
        "2024-01-08").2.2
      (fun ms => by simp [alwaysToolOracle])
      (fun ms m hm => by
        injection hm with h
        rw [← h]
        simp)
      (fun ms m tc hm htc => by
        injection hm with h
        rw [← h] at htc
        simp only [List.mem_singleton] at htc
        rw [htc]
        intro hno
        rw [show jsonParse (argSource
            ⟨"call_1", "mcp_GitHub_list_pull_requests", "\x7b\x7d"⟩)
          = some (Json.obj []) from rfl] at hno
        cases hno)).1,
    ((loop_terminates_within_cap oracleDone hostOk "o" "r" "2024-01-01"
        "2024-01-08").2.1
      ⟨some "done", []⟩ rfl rfl).1⟩

/-- **C3 (the code at the failing input).** With a reasoning service whose
first response requests one tool call carrying the malformed argument
payload `"not json"` (which `JSON.parse` rejects, second conjunct), the
whole repository summarization aborts with the uncaught argument-parse
exception: no error-flagged tool-result is fed back into the conversation
and the round does not continue, because in the source the `JSON.parse` of
the argument payload sits outside the `try`/`catch` guarding tool
invocation. -/
theorem malformed_args_abort :
    summarizeRepo badArgsOracle hostOk "o" "r" "2024-01-01" "2024-01-08" =
      .error (.argParse "not json") ∧
    jsonParse "not json" = none :=
  ⟨rfl, rfl⟩

/-- Witness for `callTool_captures_failures`: a thrown SDK failure on the
mapped tool comes back as an `isError: true` envelope. -/
theorem callTool_captures_failures_witness :
    callTool true sdkBoom "mcp_GitHub_get_pull_request" (Json.obj []) =
      .ok { content := [Json.obj [("type", .str "text"),
              ("text", .str "Error calling tool mcp_GitHub_get_pull_request: boom")]],
            isError := some true } :=
  (callTool_captures_failures sdkBoom "mcp_GitHub_get_pull_request" (Json.obj [])).2.1
    "boom" rfl

theorem toolCallIds_append (a b : List Msg) :
    toolCallIds (a ++ b) = toolCallIds a ++ toolCallIds b := by
  simp [toolCallIds]

theorem toolResultIds_append (a b : List Msg) :
    toolResultIds (a ++ b) = toolResultIds a ++ toolResultIds b := by
  simp [toolResultIds]

theorem answered_system_cons (p : String) (l : List Msg) :
    answered (Msg.system p :: l) ↔ answered l := by
  unfold answered
  simp [toolCallIds, toolResultIds, Msg.callIds, Msg.resultIds]

theorem suffix_append_cases {α : Type} {s a b : List α} (h : s <:+ a ++ b) :
    s <:+ b ∨ ∃ s2, s2 <:+ a ∧ s = s2 ++ b := by
  obtain ⟨t, ht⟩ := h
  rcases List.append_eq_append_iff.1 ht with ⟨a2, ha, hs⟩ | ⟨c2, hc, hb⟩
  · exact Or.inr ⟨a2, ⟨t, ha.symm⟩, hs⟩
  · exact Or.inl ⟨c2, hb.symm⟩

theorem suffix_singleton {α : Type} {s : List α} {x : α} (h : s <:+ [x]) :
    s = [] ∨ s = [x] := by
  obtain ⟨t, ht⟩ := h
  cases t with
  | nil => exact Or.inr (by simpa using ht)
  | cons y t2 =>
    have hlen : (y :: t2).length + s.length = 1 := by
      rw [← List.length_append, ht]
      rfl
    rw [List.length_cons] at hlen
    exact Or.inl (List.eq_nil_of_length_eq_zero (by omega))

theorem lastN_suffix (n : Nat) (l : List Msg) : lastN n l <:+ l :=
  List.drop_suffix _ _

theorem answeredSuffixes_budget {ms : List Msg} (hA : AnsweredSuffixes ms)
    (hh : headIsSystem ms) : AnsweredSuffixes (budgetMessages ms) := by
  obtain ⟨p, rest, rfl⟩ : ∃ p rest, ms = Msg.system p :: rest := by
    cases ms with
    | nil => exact hh.elim
    | cons m0 rest =>
      cases m0 with
      | system p => exact ⟨p, rest, rfl⟩
      | user c => exact hh.elim
      | assistant c tcs => exact hh.elim
      | tool a b => exact hh.elim
  unfold budgetMessages
  by_cases hover : MAX_TOTAL_MESSAGE_TOKENS < totalMessageSize (Msg.system p :: rest)
  · simp only [if_pos hover, List.take_succ_cons, List.take_zero]
    intro s hs
    rcases suffix_append_cases hs with h | ⟨s2, hs2, rfl⟩
    · exact hA s (h.trans (lastN_suffix 5 _))
    · rcases suffix_singleton hs2 with rfl | rfl
      · simpa using hA _ (lastN_suffix 5 _)
      · rw [List.singleton_append]
        exact (answered_system_cons p _).2 (hA _ (lastN_suffix 5 _))
  · simp only [if_neg hover]
    exact hA

theorem headIsSystem_budget {ms : List Msg} (hh : headIsSystem ms) :
    headIsSystem (budgetMessages ms) := by
  obtain ⟨p, rest, rfl⟩ : ∃ p rest, ms = Msg.system p :: rest := by
    cases ms with
    | nil => exact hh.elim
    | cons m0 rest =>
      cases m0 with
      | system p => exact ⟨p, rest, rfl⟩
      | user c => exact hh.elim
      | assistant c tcs => exact hh.elim
      | tool a b => exact hh.elim
  unfold budgetMessages
  by_cases hover : MAX_TOTAL_MESSAGE_TOKENS < totalMessageSize (Msg.system p :: rest)
  · simp only [if_pos hover, List.take_succ_cons, List.take_zero, List.singleton_append]
    trivial
  · simp only [if_neg hover]
    trivial

theorem headIsSystem_append {ms l : List Msg} (hh : headIsSystem ms) :
    headIsSystem (ms ++ l) := by
  cases ms with
  | nil => exact hh.elim
  | cons m0 rest =>
    cases m0 with
    | system p => rw [List.cons_append]; trivial
    | user c => exact hh.elim
    | assistant c tcs => exact hh.elim
    | tool a b => exact hh.elim

theorem toolResponseMsg_ids (host : String → Json → Except String MCPToolResult)
    (tc : ToolCall) (args : Json) :
    (toolResponseMsg host tc args).resultIds = [tc.id] ∧
    (toolResponseMsg host tc args).callIds = [] := by
  unfold toolResponseMsg
  cases host tc.name args with
  | ok result =>
    by_cases he : result.isError.getD false
    · simp only [he, if_true]
      exact ⟨rfl, rfl⟩
    · simp only [he, Bool.false_eq_true, if_false]
      exact ⟨rfl, rfl⟩
  | error e => exact ⟨rfl, rfl⟩

theorem processToolCalls_shape (host : String → Json → Except String MCPToolResult) :
    ∀ tcs acc out, processToolCalls host tcs acc = .ok out →
      ∃ rs, out = acc ++ rs ∧ toolResultIds rs = tcs.map ToolCall.id ∧
        toolCallIds rs = [] := by
  intro tcs
  induction tcs with
  | nil =>
    intro acc out h
    have hacc : acc = out := by simpa [processToolCalls] using h
    exact ⟨[], by simp [hacc], rfl, rfl⟩
  | cons tc rest ih =>
    intro acc out h
    unfold processToolCalls at h
    cases hj : jsonParse (argSource tc) with
    | none => rw [hj] at h; cases h
    | some args =>
      rw [hj] at h
      obtain ⟨rs, hout, hres, hcall⟩ := ih _ _ h
      refine ⟨toolResponseMsg host tc args :: rs, ?_, ?_, ?_⟩
      · rw [hout, List.append_assoc, List.singleton_append]
      · rw [List.map_cons]
        show (toolResponseMsg host tc args).resultIds ++ toolResultIds rs = _
        rw [(toolResponseMsg_ids host tc args).1, hres]
        rfl
      · show (toolResponseMsg host tc args).callIds ++ toolCallIds rs = _
        rw [(toolResponseMsg_ids host tc args).2, hcall]
        rfl

theorem answeredSuffixes_round (host : String → Json → Except String MCPToolResult)
    {sent : List Msg} (hA : AnsweredSuffixes sent) (m : AssistantMsg)
    (hnodup : (m.tool_calls.map ToolCall.id).Nodup)
    (hfresh : ∀ tc ∈ m.tool_calls, tc.id ∉ usedIds sent)
    {out : List Msg}
    (hout : processToolCalls host m.tool_calls
      (sent ++ [Msg.assistant m.content m.tool_calls]) = .ok out) :
    AnsweredSuffixes out := by
  obtain ⟨rs, rfl, hres, hcall⟩ := processToolCalls_shape host _ _ _ hout
  rw [List.append_assoc]
  intro s hs
  have hasst : toolCallIds ([Msg.assistant m.content m.tool_calls] ++ rs)
      = m.tool_calls.map ToolCall.id := by
    rw [toolCallIds_append, hcall, List.append_nil]
    simp [toolCallIds, Msg.callIds]
  have hresids : toolResultIds ([Msg.assistant m.content m.tool_calls] ++ rs)
      = m.tool_calls.map ToolCall.id := by
    rw [toolResultIds_append, hres]
    simp [toolResultIds, Msg.resultIds]
  rcases suffix_append_cases hs with h | ⟨s2, hs2, rfl⟩
  · rw [List.singleton_append] at h
    rcases List.suffix_cons_iff.1 h with rfl | h2
    · -- s is the assistant message followed by all its results
      intro cid hcid
      rw [← List.singleton_append] at hcid ⊢
      rw [hasst] at hcid
      rw [hresids]
      exact List.count_eq_one_of_mem hnodup hcid
    · -- s is a suffix of the results: it carries no requests
      intro cid hcid
      exfalso
      obtain ⟨t, ht⟩ := h2
      have h0 : toolCallIds t ++ toolCallIds s = [] := by
        rw [← toolCallIds_append, ht, hcall]
      rw [(List.append_eq_nil.1 h0).2] at hcid
      cases hcid
  · -- s = s2 ++ (assistant :: results) with s2 a suffix of the old history
    intro cid hcid
    rw [toolCallIds_append, hasst, List.mem_append] at hcid
    rw [toolResultIds_append, hresids, List.count_append]
    have hsub_call : ∀ x, x ∈ toolCallIds s2 → x ∈ toolCallIds sent := by
      intro x hx
      obtain ⟨t, ht⟩ := hs2
      rw [← ht, toolCallIds_append, List.mem_append]
      exact Or.inr hx
    have hsub_res : ∀ x, x ∈ toolResultIds s2 → x ∈ toolResultIds sent := by
      intro x hx
      obtain ⟨t, ht⟩ := hs2
      rw [← ht, toolResultIds_append, List.mem_append]
      exact Or.inr hx
    rcases hcid with hold | hnew
    · -- an old request: answered once in the old suffix, fresh ids differ
      have h1 : (toolResultIds s2).count cid = 1 := hA s2 hs2 cid hold
      have h2 : (m.tool_calls.map ToolCall.id).count cid = 0 := by
        rw [List.count_eq_zero]
        intro hmem
        obtain ⟨tc, htc, hid⟩ := List.mem_map.1 hmem
        exact hfresh tc htc (by
          rw [hid]
          exact List.mem_append_left _ (hsub_call cid hold))
      omega
    · -- a fresh request: no old result carries its id, one new result does
      have h1 : (toolResultIds s2).count cid = 0 := by
        rw [List.count_eq_zero]
        intro hmem
        obtain ⟨tc, htc, hid⟩ := List.mem_map.1 hnew
        exact hfresh tc htc (by
          rw [hid]
          exact List.mem_append_right _ (hsub_res cid hmem))
      have h2 : (m.tool_calls.map ToolCall.id).count cid = 1 :=
        List.count_eq_one_of_mem hnodup hnew
      omega

theorem runRounds_trace_answered (oracle : List Msg → Option AssistantMsg)
    (host : String → Json → Except String MCPToolResult) (owner repo : String)
    (hfresh : ∀ ms m, oracle ms = some m →
      (m.tool_calls.map ToolCall.id).Nodup ∧
      ∀ tc ∈ m.tool_calls, tc.id ∉ usedIds ms) :
    ∀ fuel ms, AnsweredSuffixes ms → headIsSystem ms →
      ∀ l ∈ (runRounds oracle host owner repo fuel ms).2, answered l := by
  intro fuel
  induction fuel with
  | zero => intro ms _ _ l hl; simp [runRounds] at hl
  | succ f ih =>
    intro ms hA hh l hl
    rw [runRounds_succ] at hl
    have hAb : AnsweredSuffixes (budgetMessages ms) := answeredSuffixes_budget hA hh
    have hhb : headIsSystem (budgetMessages ms) := headIsSystem_budget hh
    cases ho : oracle (budgetMessages ms) with
    | none =>
      rw [ho] at hl
      simp only [List.mem_singleton] at hl
      subst hl
      exact hAb _ (List.suffix_refl _)
    | some message =>
      rw [ho] at hl
      by_cases he : message.tool_calls.isEmpty
      · simp only [he, if_true, List.mem_singleton] at hl
        subst hl
        exact hAb _ (List.suffix_refl _)
      · simp only [he, Bool.false_eq_true, if_false] at hl
        cases hp : processToolCalls host message.tool_calls
            (budgetMessages ms ++ [Msg.assistant message.content message.tool_calls]) with
        | error e =>
          rw [hp] at hl
          simp only [List.mem_singleton] at hl
          subst hl
          exact hAb _ (List.suffix_refl _)
        | ok ms3 =>
          rw [hp] at hl
          simp only [List.mem_cons] at hl
          rcases hl with rfl | hl
          · exact hAb _ (List.suffix_refl _)
          · have hA3 : AnsweredSuffixes ms3 :=
              answeredSuffixes_round host hAb message (hfresh _ _ ho).1
                (hfresh _ _ ho).2 hp
            have hh3 : headIsSystem ms3 := by
              obtain ⟨rs, rfl, _, _⟩ := processToolCalls_shape host _ _ _ hp
              exact headIsSystem_append (headIsSystem_append hhb)
            exact ih ms3 hA3 hh3 l hl

/-- **C1.** During one repository summarization — for any reasoning-service
and tool-host behaviour, hence any mix of success, error-envelope and
thrown tool outcomes, and any rounds of history pruning — provided the
reasoning service's tool-call ids are fresh (no duplicates within a
response and unused in the conversation it is answering, the protocol's id
uniqueness), every message list actually sent to the reasoning service
(each round's post-pruning conversation) has every ToolCallRequest
answered by exactly one tool-result message associated by its id. In
particular the requests of one round are all answered before the next
round's request is sent. -/
theorem toolCalls_answered (oracle : List Msg → Option AssistantMsg)
    (host : String → Json → Except String MCPToolResult)
    (owner repo startDateStr endDateStr : String)
    (hfresh : ∀ ms m, oracle ms = some m →
      (m.tool_calls.map ToolCall.id).Nodup ∧
      ∀ tc ∈ m.tool_calls, tc.id ∉ usedIds ms) :
    ∀ l ∈ summarizeRepoTrace oracle host owner repo startDateStr endDateStr,
      answered l := by
  intro l hl
  refine runRounds_trace_answered oracle host owner repo hfresh 20
    (initialMessages owner repo startDateStr endDateStr) ?_ ?_ l hl
  · intro s hs cid hcid
    exfalso
    obtain ⟨t, ht⟩ := hs
    have h0 : toolCallIds t ++ toolCallIds s = [] := by
      rw [← toolCallIds_append, ht]
      rfl
    rw [(List.append_eq_nil.1 h0).2] at hcid
    cases hcid
  · trivial

/-- Witness for `toolCalls_answered`: the last conversation actually sent
by the fresh-id stub's run — it contains the stub's ToolCallRequest and
its single tool-result answer. -/
theorem toolCalls_answered_witness :
    answered ((summarizeRepoTrace freshToolOracle hostOk "o" "r" "2024-01-01"
      "2024-01-08").getLastD []) :=
  toolCalls_answered freshToolOracle hostOk "o" "r" "2024-01-01" "2024-01-08"
    (fun ms m hm => by
      unfold freshToolOracle at hm
      by_cases hc : "call_1" ∈ usedIds ms
      · rw [if_pos hc] at hm
        injection hm with h
        rw [← h]
        exact ⟨List.nodup_nil, fun tc htc => absurd htc (List.not_mem_nil tc)⟩
      · rw [if_neg hc] at hm
        injection hm with h
        rw [← h]
        refine ⟨List.nodup_singleton _, ?_⟩
        intro tc htc
        rw [List.mem_singleton] at htc
        rw [htc]
        exact hc)
    _ (by decide)

end Newsletter
